import Mathlib

/-!
Verification of the delete-bitset module (`src/fastfield/delete.rs`).

The module packs the set of deleted `DocId`s of a segment into a byte
buffer (bit `i` of the stream lives in byte `i / 8` at bit `i % 8`,
least-significant-bit first), reads such buffers back, answers point
queries (`is_deleted` / `is_alive`), counts deleted documents, and merges
two buffers by byte-wise OR with zero-extension.

Bytes are modelled as `ℕ` (every value that arises is `< 256`, and all
bit operations used by the code only touch bits `0..7`, so `ℕ` with the
same `|||`/`&&&`/`<<<` operations is an exact model of `u8`).  The
`Write` sink of `write_delete_bitset` is modelled by a function
`fail? : ℕ → Option ε` giving the outcome of the k-th `write_all` call,
together with an explicit writer state recording the bytes the sink has
received; the `?` early return of Rust is the error latch in the state.
-/

namespace TantivyDelete

/-- Modelled from the spec: `common::BitSet` (the crate `common` is not part
of the shown sources).  Per the spec it is an in-memory set of deleted
`DocId`s: `contains` is set membership and `len` is the exact cardinality
of the set. -/
structure BitSet where
  docs : Finset ℕ

/-- Modelled from the spec: `BitSet::contains` is set membership. -/
def BitSet.contains (s : BitSet) (doc : ℕ) : Bool :=
  decide (doc ∈ s.docs)

/-- Modelled from the spec: `BitSet::len` is the exact cardinality of the set. -/
def BitSet.len (s : BitSet) : ℕ :=
  s.docs.card

/-- State of the encoding loop of `write_delete_bitset`: `err` is the error
latch modelling the `?` early return, `byte`/`shift` are the loop locals of
the Rust code, `writes` counts the `write_all` calls that succeeded so far,
and `trace` is the sequence of bytes the sink has received. -/
structure WriterState (ε : Type) where
  err : Option ε
  byte : ℕ
  shift : ℕ
  writes : ℕ
  trace : List ℕ
deriving DecidableEq

/-- One iteration of the `for doc in 0..max_doc` loop of
`write_delete_bitset`.  `fail? k` is the outcome of the k-th `write_all`
call on the sink (`none` = success). -/
def writeStep {ε : Type} (c : ℕ → Bool) (fail? : ℕ → Option ε)
    (st : WriterState ε) (doc : ℕ) : WriterState ε :=
  if st.err.isSome then st
  else
    let b := if c doc then st.byte ||| (1 <<< st.shift) else st.byte
    if st.shift = 7 then
      match fail? st.writes with
      | some e => { st with err := some e }
      | none => { st with byte := 0, shift := 0, writes := st.writes + 1,
                          trace := st.trace ++ [b] }
    else
      { st with byte := b, shift := st.shift + 1 }

/-- `write_delete_bitset` run against a sink whose k-th `write_all` call
behaves as `fail? k`: the loop over `0..max_doc` followed by the final
`if max_doc % 8 > 0` write of the trailing partial byte. -/
def write_delete_bitset_io {ε : Type} (delete_bitset : BitSet) (max_doc : ℕ)
    (fail? : ℕ → Option ε) : WriterState ε :=
  let st := (List.range max_doc).foldl (writeStep delete_bitset.contains fail?)
    ⟨none, 0, 0, 0, []⟩
  if st.err.isSome then st
  else if max_doc % 8 > 0 then
    match fail? st.writes with
    | some e => { st with err := some e }
    | none => { st with writes := st.writes + 1, trace := st.trace ++ [st.byte] }
  else st

/-- The bytes `write_delete_bitset` produces on a sink that never fails
(this is exactly how `DeleteBitSet::from_bitset` uses it, writing into a
`Vec<u8>`). -/
def write_delete_bitset (delete_bitset : BitSet) (max_doc : ℕ) : List ℕ :=
  (write_delete_bitset_io delete_bitset max_doc (fun _ => (none : Option Unit))).trace

/-- Number of `write_all` calls `write_delete_bitset` makes when no write
fails: one per full byte plus one for a trailing partial byte. -/
def numWrites (max_doc : ℕ) : ℕ :=
  max_doc / 8 + if max_doc % 8 > 0 then 1 else 0

/-- Population count of a byte, `u8::count_ones`: the number of set bits
among bit positions `0..7`. -/
def countOnes (b : ℕ) : ℕ :=
  (List.range 8).countP (fun j => b.testBit j)

/-- In-memory `DeleteBitSet`: the packed byte buffer and the cached count
of deleted documents. -/
structure DeleteBitSet where
  data : List ℕ
  num_deleted : ℕ
deriving DecidableEq

/-- `DeleteBitSet::open`: keep the bytes read from the file and derive
`num_deleted` as the sum of the population counts of every byte of the
buffer. -/
def DeleteBitSet.open' (bytes : List ℕ) : DeleteBitSet :=
  { data := bytes
    num_deleted := (bytes.map countOnes).sum }

/-- `DeleteBitSet::from_bitset`: encode the bitset with
`write_delete_bitset` into an in-memory buffer and cache the bitset's
`len()` as `num_deleted`. -/
def DeleteBitSet.from_bitset (bitset : BitSet) (max_doc : ℕ) : DeleteBitSet :=
  { data := write_delete_bitset bitset max_doc
    num_deleted := bitset.len }

/-- `DeleteBitSet::is_deleted`.  The Rust code indexes
`self.data.as_slice()[byte_offset]`, which panics when `byte_offset` is out
of bounds; the panic is modelled by `none`, an in-bounds read by
`some` of the boolean the code returns. -/
def DeleteBitSet.is_deleted? (d : DeleteBitSet) (doc : ℕ) : Option Bool :=
  let byte_offset := doc / 8
  match d.data[byte_offset]? with
  | some b =>
    let shift := doc &&& 7
    some ((b &&& (1 <<< shift)) != 0)
  | none => none

/-- `DeleteBitSet::is_alive`: the negation of `is_deleted` (propagating the
possible out-of-bounds panic of the inner call). -/
def DeleteBitSet.is_alive? (d : DeleteBitSet) (doc : ℕ) : Option Bool :=
  (d.is_deleted? doc).map (fun b => !b)

/-- `DeleteBitSet::num_deleted` returns the cached field (the accessor of
the structure field is the method itself). -/
def DeleteBitSet.numDeleted (d : DeleteBitSet) : ℕ :=
  d.num_deleted

/-- `HasLen::len` for `DeleteBitSet` returns `num_deleted`. -/
def DeleteBitSet.len (d : DeleteBitSet) : ℕ :=
  d.num_deleted

/-- `DeleteBitSet::space_usage`: the byte length of the packed buffer. -/
def DeleteBitSet.space_usage (d : DeleteBitSet) : ℕ :=
  d.data.length

/-- A shorter buffer extended with zero bytes up to length `n`, the
semantics `merge_delete_bitset` gives to the missing bytes of the shorter
operand (`merged.resize(..., 0)` followed by the prefix copy). -/
def zeroExtend (bytes : List ℕ) (n : ℕ) : List ℕ :=
  bytes ++ List.replicate (n - bytes.length) 0

/-- `merge_delete_bitset`: resize a zero buffer to the longer length, copy
the left bytes into their prefix, OR the right bytes into their prefix,
and recompute `num_deleted` as the population count of the merged buffer. -/
def merge_delete_bitset (left right : DeleteBitSet) : DeleteBitSet :=
  let n := max left.data.length right.data.length
  let merged := List.zipWith (fun a b => a ||| b)
    (zeroExtend left.data n) (zeroExtend right.data n)
  { data := merged
    num_deleted := (merged.map countOnes).sum }

/-- Closed form for a byte accumulated by the encoder loop: the OR of
`1 <<< j` over the positions `j < m` whose document `start + j` is
deleted. -/
def packBits (c : ℕ → Bool) (start m : ℕ) : ℕ :=
  (List.range m).foldl (fun acc j => if c (start + j) then acc ||| (1 <<< j) else acc) 0

/-- Closed form for the first `m` full bytes the encoder writes. -/
def fullBytes (c : ℕ → Bool) (m : ℕ) : List ℕ :=
  (List.range m).map (fun k => packBits c (8 * k) 8)

/-- Closed form for the whole encoded buffer: all full bytes, then the
trailing partial byte when `max_doc` is not a multiple of 8. -/
def encodedBytes (c : ℕ → Bool) (max_doc : ℕ) : List ℕ :=
  fullBytes c (max_doc / 8) ++
    (if max_doc % 8 > 0 then [packBits c (8 * (max_doc / 8)) (max_doc % 8)] else [])

/-! Bit-level facts about `packBits` and `countOnes`. -/

lemma packBits_zero (c : ℕ → Bool) (s : ℕ) : packBits c s 0 = 0 := rfl

lemma packBits_succ (c : ℕ → Bool) (s m : ℕ) :
    packBits c s (m + 1) =
      if c (s + m) then packBits c s m ||| (1 <<< m) else packBits c s m := by
  simp [packBits, List.range_succ]

lemma testBit_packBits (c : ℕ → Bool) (s m j : ℕ) :
    (packBits c s m).testBit j = (decide (j < m) && c (s + j)) := by
  induction m with
  | zero => simp [packBits_zero]
  | succ m ih =>
    rw [packBits_succ]
    by_cases hc : c (s + m)
    · rw [if_pos hc, Nat.testBit_or, ih, Nat.one_shiftLeft]
      by_cases hj : j = m
      · subst hj
        simp [Nat.testBit_two_pow_self, hc]
      · rw [Nat.testBit_two_pow_of_ne (fun h => hj h.symm)]
        rcases Nat.lt_or_ge j m with hlt | hge
        · simp [hlt, Nat.lt_succ_of_lt hlt]
        · have h1 : ¬ j < m := Nat.not_lt.mpr hge
          have h2 : ¬ j < m + 1 := by omega
          simp [h1, h2]
    · rw [if_neg hc, ih]
      by_cases hj : j = m
      · subst hj
        simp [hc]
      · have : (j < m) ↔ (j < m + 1) := by omega
        simp [this]

lemma countOnes_packBits (c : ℕ → Bool) (s m : ℕ) (hm : m ≤ 8) :
    countOnes (packBits c s m) = (List.range m).countP (fun j => c (s + j)) := by
  unfold countOnes
  have h8 : (8 : ℕ) = m + (8 - m) := by omega
  rw [h8, List.range_add, List.countP_append, List.countP_map]
  have h1 : (List.range m).countP (fun j => (packBits c s m).testBit j) =
      (List.range m).countP (fun j => c (s + j)) := by
    refine List.countP_congr (fun j hj => ?_)
    have hjm : j < m := List.mem_range.mp hj
    rw [testBit_packBits]
    simp [hjm]
  have h2 : (List.range (8 - m)).countP
      ((fun j => (packBits c s m).testBit j) ∘ (fun x => m + x)) = 0 := by
    rw [List.countP_eq_length_filter]
    have : (List.range (8 - m)).filter
        ((fun j => (packBits c s m).testBit j) ∘ (fun x => m + x)) = [] := by
      refine List.filter_eq_nil_iff.mpr (fun x _ => ?_)
      simp only [Function.comp_apply, testBit_packBits]
      have : ¬ (m + x < m) := by omega
      simp [this]
    rw [this]
    rfl
  rw [h1, h2, Nat.add_zero]

/-- The test `b & (1 << s) != 0` of `is_deleted` reads exactly bit `s`. -/
lemma and_one_shiftLeft_ne (b s : ℕ) : ((b &&& (1 <<< s)) != 0) = b.testBit s := by
  rw [Nat.one_shiftLeft, Nat.and_two_pow]
  cases hb : b.testBit s
  · simp
  · have h2 : (2 : ℕ) ^ s ≠ 0 := (Nat.pos_pow_of_pos s (by omega)).ne'
    simp [h2]

/-- The mask `doc & 7` of `is_deleted` computes `doc % 8`. -/
lemma and_seven_eq_mod (n : ℕ) : n &&& 7 = n % 8 := by
  have h7 : (7 : ℕ) = 2 ^ 3 - 1 := rfl
  have h8 : (8 : ℕ) = 2 ^ 3 := rfl
  apply Nat.eq_of_testBit_eq
  intro i
  rw [Nat.testBit_and, h7, Nat.testBit_two_pow_sub_one, h8, Nat.testBit_mod_two_pow,
    Bool.and_comm]

/-! The encoder loop invariant. -/

/-- State of the `for doc in 0..n` loop after `n` iterations. -/
def loopState {ε : Type} (c : ℕ → Bool) (fail? : ℕ → Option ε) (n : ℕ) :
    WriterState ε :=
  (List.range n).foldl (writeStep c fail?) ⟨none, 0, 0, 0, []⟩

lemma loopState_succ {ε : Type} (c : ℕ → Bool) (fail? : ℕ → Option ε) (n : ℕ) :
    loopState c fail? (n + 1) = writeStep c fail? (loopState c fail? n) n := by
  simp [loopState, List.range_succ]

lemma fullBytes_zero (c : ℕ → Bool) : fullBytes c 0 = [] := rfl

lemma fullBytes_succ (c : ℕ → Bool) (m : ℕ) :
    fullBytes c (m + 1) = fullBytes c m ++ [packBits c (8 * m) 8] := by
  simp [fullBytes, List.range_succ]

/-- While every `write_all` call has succeeded, after `n` iterations the
loop has written the `n / 8` full bytes, and holds the partial byte of the
current group with `shift = n % 8`. -/
lemma loopState_ok {ε : Type} (c : ℕ → Bool) (fail? : ℕ → Option ε) (n : ℕ)
    (h : ∀ k, k < n / 8 → fail? k = none) :
    loopState c fail? n =
      ⟨none, packBits c (8 * (n / 8)) (n % 8), n % 8, n / 8, fullBytes c (n / 8)⟩ := by
  induction n with
  | zero => rfl
  | succ n ih =>
    have hdiv : n / 8 ≤ (n + 1) / 8 := Nat.div_le_div_right (Nat.le_succ n)
    have hn : ∀ k, k < n / 8 → fail? k = none := fun k hk => h k (lt_of_lt_of_le hk hdiv)
    rw [loopState_succ, ih hn]
    by_cases h7 : n % 8 = 7
    · have hq : (n + 1) / 8 = n / 8 + 1 := by omega
      have hr : (n + 1) % 8 = 0 := by omega
      have hfail : fail? (n / 8) = none := h (n / 8) (by omega)
      have hbyte : (if c n then packBits c (8 * (n / 8)) 7 ||| (1 <<< 7)
          else packBits c (8 * (n / 8)) 7) = packBits c (8 * (n / 8)) 8 := by
        have hn8 : 8 * (n / 8) + 7 = n := by omega
        have hs := packBits_succ c (8 * (n / 8)) 7
        norm_num at hs
        rw [hs, hn8]
      simp only [writeStep, h7, hfail, Option.isSome_none, Bool.false_eq_true, if_false,
        if_true, reduceIte]
      rw [hq, hr, hbyte, fullBytes_succ]
      simp [packBits_zero]
    · have hq : (n + 1) / 8 = n / 8 := by omega
      have hr : (n + 1) % 8 = n % 8 + 1 := by omega
      have hbyte : (if c n then packBits c (8 * (n / 8)) (n % 8) ||| (1 <<< (n % 8))
          else packBits c (8 * (n / 8)) (n % 8)) = packBits c (8 * (n / 8)) (n % 8 + 1) := by
        have hn8 : 8 * (n / 8) + n % 8 = n := by omega
        rw [packBits_succ, hn8]
      simp only [writeStep, h7, Option.isSome_none, Bool.false_eq_true, if_false, reduceIte]
      rw [hq, hr, hbyte]

/-- Once the `k₀`-th `write_all` call fails (all earlier ones having
succeeded), the loop stops writing: the sink keeps exactly the first `k₀`
bytes and the error is latched. -/
lemma loopState_fail {ε : Type} (c : ℕ → Bool) (fail? : ℕ → Option ε) (n k₀ : ℕ) (e : ε)
    (hk : k₀ < n / 8) (hprev : ∀ k, k < k₀ → fail? k = none) (he : fail? k₀ = some e) :
    loopState c fail? n =
      ⟨some e, packBits c (8 * k₀) 7, 7, k₀, fullBytes c k₀⟩ := by
  induction n with
  | zero => omega
  | succ n ih =>
    by_cases hcase : k₀ < n / 8
    · rw [loopState_succ, ih hcase]
      simp [writeStep]
    · have hk0 : k₀ = n / 8 := by omega
      have h7 : n % 8 = 7 := by omega
      rw [loopState_succ, loopState_ok c fail? n (fun k hkk => hprev k (by omega))]
      subst hk0
      simp only [writeStep, h7, he, Option.isSome_none, Bool.false_eq_true, if_false,
        if_true, reduceIte]

lemma numWrites_eq (max_doc : ℕ) : numWrites max_doc = (max_doc + 7) / 8 := by
  unfold numWrites
  by_cases h : max_doc % 8 > 0 <;> simp [h] <;> omega

/-- Success behaviour of `write_delete_bitset_io` when no write fails. -/
lemma write_io_ok {ε : Type} (bs : BitSet) (max_doc : ℕ) (fail? : ℕ → Option ε)
    (h : ∀ k, k < numWrites max_doc → fail? k = none) :
    write_delete_bitset_io bs max_doc fail? =
      ⟨none, packBits bs.contains (8 * (max_doc / 8)) (max_doc % 8), max_doc % 8,
        numWrites max_doc, encodedBytes bs.contains max_doc⟩ := by
  have hloop : ∀ k, k < max_doc / 8 → fail? k = none := by
    intro k hk
    exact h k (by rw [numWrites_eq]; omega)
  unfold write_delete_bitset_io
  rw [show (List.range max_doc).foldl (writeStep bs.contains fail?) ⟨none, 0, 0, 0, []⟩ =
      loopState bs.contains fail? max_doc from rfl]
  rw [loopState_ok bs.contains fail? max_doc hloop]
  by_cases hr : max_doc % 8 > 0
  · have hfail : fail? (max_doc / 8) = none := h (max_doc / 8) (by rw [numWrites_eq]; omega)
    simp only [Option.isSome_none, Bool.false_eq_true, if_false, hr, if_true, hfail,
      reduceIte]
    unfold numWrites encodedBytes
    simp [hr]
  · simp only [Option.isSome_none, Bool.false_eq_true, if_false, hr, reduceIte]
    unfold numWrites encodedBytes
    simp [hr]

/-- Failure behaviour of `write_delete_bitset_io`: the run aborts at the
first failing write with the error surfaced unmodified, the sink holding
exactly the bytes written before it. -/
lemma write_io_fail {ε : Type} (bs : BitSet) (max_doc : ℕ) (fail? : ℕ → Option ε)
    (k₀ : ℕ) (e : ε) (hk : k₀ < numWrites max_doc)
    (hprev : ∀ k, k < k₀ → fail? k = none) (he : fail? k₀ = some e) :
    (write_delete_bitset_io bs max_doc fail?).err = some e ∧
    (write_delete_bitset_io bs max_doc fail?).trace = fullBytes bs.contains k₀ ∧
    (write_delete_bitset_io bs max_doc fail?).writes = k₀ := by
  unfold write_delete_bitset_io
  rw [show (List.range max_doc).foldl (writeStep bs.contains fail?) ⟨none, 0, 0, 0, []⟩ =
      loopState bs.contains fail? max_doc from rfl]
  by_cases hcase : k₀ < max_doc / 8
  · rw [loopState_fail bs.contains fail? max_doc k₀ e hcase hprev he]
    simp
  · have hk0 : k₀ = max_doc / 8 := by rw [numWrites_eq] at hk; omega
    have hr : max_doc % 8 > 0 := by rw [numWrites_eq] at hk; omega
    rw [loopState_ok bs.contains fail? max_doc (fun k hkk => hprev k (by omega))]
    subst hk0
    simp [hr, he]

/-- The pure encoder output coincides with its closed form. -/
lemma write_delete_bitset_eq (bs : BitSet) (max_doc : ℕ) :
    write_delete_bitset bs max_doc = encodedBytes bs.contains max_doc := by
  unfold write_delete_bitset
  rw [write_io_ok bs max_doc (fun _ => (none : Option Unit)) (fun _ _ => rfl)]

/-! Counting: the population count of the encoded buffer is the number of
deleted documents below `max_doc`. -/

lemma sum_countOnes_fullBytes (c : ℕ → Bool) (m : ℕ) :
    ((fullBytes c m).map countOnes).sum = (List.range (8 * m)).countP c := by
  induction m with
  | zero => rfl
  | succ m ih =>
    rw [fullBytes_succ, List.map_append, List.sum_append]
    have h8 : 8 * (m + 1) = 8 * m + 8 := by ring
    rw [h8, List.range_add, List.countP_append, ih]
    have : countOnes (packBits c (8 * m) 8) =
        (List.range 8).countP (fun j => c (8 * m + j)) :=
      countOnes_packBits c (8 * m) 8 (le_refl 8)
    rw [List.countP_map]
    simp only [List.map_cons, List.map_nil, List.sum_cons, List.sum_nil, Nat.add_zero, this]
    rfl

lemma sum_countOnes_encodedBytes (c : ℕ → Bool) (max_doc : ℕ) :
    ((encodedBytes c max_doc).map countOnes).sum = (List.range max_doc).countP c := by
  unfold encodedBytes
  have hsplit : max_doc = 8 * (max_doc / 8) + max_doc % 8 := by omega
  by_cases hr : max_doc % 8 > 0
  · rw [if_pos hr, List.map_append, List.sum_append, sum_countOnes_fullBytes]
    have hpart : countOnes (packBits c (8 * (max_doc / 8)) (max_doc % 8)) =
        (List.range (max_doc % 8)).countP (fun j => c (8 * (max_doc / 8) + j)) :=
      countOnes_packBits c (8 * (max_doc / 8)) (max_doc % 8) (by omega)
    conv_rhs => rw [hsplit]
    rw [List.range_add, List.countP_append, List.countP_map]
    simp only [List.map_cons, List.map_nil, List.sum_cons, List.sum_nil, Nat.add_zero, hpart]
    rfl
  · rw [if_neg hr]
    conv_rhs => rw [hsplit]
    have h0 : max_doc % 8 = 0 := by omega
    rw [h0]
    simp [sum_countOnes_fullBytes]

/-- Counting members of a `Finset` below a bound that contains all of them
is counting the whole set. -/
lemma countP_range_card (s : Finset ℕ) (max_doc : ℕ) (h : ∀ d ∈ s, d < max_doc) :
    (List.range max_doc).countP (fun d => decide (d ∈ s)) = s.card := by
  have h2 : (Finset.range max_doc).filter (fun d => d ∈ s) = s := by
    ext d
    simp only [Finset.mem_filter, Finset.mem_range]
    exact ⟨fun hd => hd.2, fun hd => ⟨h d hd, hd⟩⟩
  calc (List.range max_doc).countP (fun d => decide (d ∈ s))
      = Multiset.countP (fun d => d ∈ s) (Multiset.range max_doc) := by
        rw [Multiset.range, Multiset.coe_countP]
    _ = ((Finset.range max_doc).filter (fun d => d ∈ s)).card := by
        rw [Multiset.countP_eq_card_filter]
        rfl
    _ = s.card := by rw [h2]

/-! Access to the encoded buffer and to merged buffers. -/

lemma fullBytes_length (c : ℕ → Bool) (m : ℕ) : (fullBytes c m).length = m := by
  simp [fullBytes]

lemma encodedBytes_length (c : ℕ → Bool) (max_doc : ℕ) :
    (encodedBytes c max_doc).length = (max_doc + 7) / 8 := by
  unfold encodedBytes
  by_cases hr : max_doc % 8 > 0 <;>
    simp [hr, fullBytes_length] <;> omega

lemma fullBytes_getElem? (c : ℕ → Bool) (m k : ℕ) (hk : k < m) :
    (fullBytes c m)[k]? = some (packBits c (8 * k) 8) := by
  unfold fullBytes
  rw [List.getElem?_map, List.getElem?_range hk]
  rfl

/-- Byte `i / 8` of the encoded buffer holds bit `i % 8` equal to the
membership of document `i`, for every `i < max_doc`. -/
lemma encodedBytes_testBit (c : ℕ → Bool) (max_doc i : ℕ) (h : i < max_doc) :
    ((encodedBytes c max_doc).getD (i / 8) 0).testBit (i % 8) = c i := by
  have hsplit : 8 * (i / 8) + i % 8 = i := by omega
  rw [List.getD_eq_getElem?_getD]
  by_cases hq : i / 8 < max_doc / 8
  · have hbyte : (encodedBytes c max_doc)[i / 8]? = some (packBits c (8 * (i / 8)) 8) := by
      unfold encodedBytes
      rw [List.getElem?_append]
      rw [if_pos (by rw [fullBytes_length]; exact hq)]
      exact fullBytes_getElem? c (max_doc / 8) (i / 8) hq
    rw [hbyte]
    simp only [Option.getD_some]
    rw [testBit_packBits, hsplit]
    have : i % 8 < 8 := by omega
    simp [this]
  · have hq' : i / 8 = max_doc / 8 := by omega
    have hr : max_doc % 8 > 0 := by omega
    have hbyte : (encodedBytes c max_doc)[i / 8]? =
        some (packBits c (8 * (max_doc / 8)) (max_doc % 8)) := by
      unfold encodedBytes
      rw [if_pos hr, List.getElem?_append,
        if_neg (by rw [fullBytes_length]; omega)]
      rw [fullBytes_length, hq', Nat.sub_self]
      rfl
    rw [hbyte]
    simp only [Option.getD_some]
    rw [testBit_packBits, ← hq', hsplit]
    have : i % 8 < max_doc % 8 := by omega
    simp [this]

lemma zeroExtend_length (l : List ℕ) (n : ℕ) (h : l.length ≤ n) :
    (zeroExtend l n).length = n := by
  simp [zeroExtend]
  omega

lemma zeroExtend_getElem? (l : List ℕ) (n i : ℕ) (hi : i < n) :
    (zeroExtend l n)[i]? = some (l.getD i 0) := by
  unfold zeroExtend
  rw [List.getElem?_append]
  by_cases hil : i < l.length
  · rw [if_pos hil, List.getElem?_eq_getElem hil, List.getD_eq_getElem?_getD,
      List.getElem?_eq_getElem hil]
    rfl
  · rw [if_neg hil, List.getElem?_replicate, if_pos (by omega),
      List.getD_eq_default _ _ (by omega)]

lemma merge_data_length (a b : DeleteBitSet) :
    (merge_delete_bitset a b).data.length = max a.data.length b.data.length := by
  show (List.zipWith _ (zeroExtend a.data _) (zeroExtend b.data _)).length = _
  rw [List.length_zipWith, zeroExtend_length _ _ (le_max_left _ _),
    zeroExtend_length _ _ (le_max_right _ _), min_self]

/-- Pointwise description of the merged buffer: byte `i` is the OR of the
two operands' bytes at `i`, a missing byte of a shorter operand counting
as zero. -/
lemma merge_data_getElem? (a b : DeleteBitSet) (i : ℕ) :
    (merge_delete_bitset a b).data[i]? =
      if i < max a.data.length b.data.length then
        some (a.data.getD i 0 ||| b.data.getD i 0)
      else none := by
  show (List.zipWith _ (zeroExtend a.data (max a.data.length b.data.length))
    (zeroExtend b.data (max a.data.length b.data.length)))[i]? = _
  rw [List.getElem?_zipWith]
  by_cases hi : i < max a.data.length b.data.length
  · rw [zeroExtend_getElem? a.data _ i hi, zeroExtend_getElem? b.data _ i hi, if_pos hi]
  · rw [if_neg hi]
    have ha : (zeroExtend a.data (max a.data.length b.data.length))[i]? = none :=
      List.getElem?_eq_none (by rw [zeroExtend_length _ _ (le_max_left _ _)]; omega)
    rw [ha]

/-- `is_deleted` only looks at byte `doc / 8`: two bitsets whose buffers
give the same answer (or the same panic) there agree. -/
lemma is_deleted?_congr (d₁ d₂ : DeleteBitSet) (doc : ℕ)
    (h : d₁.data[doc / 8]? = d₂.data[doc / 8]?) :
    d₁.is_deleted? doc = d₂.is_deleted? doc := by
  simp only [DeleteBitSet.is_deleted?]
  rw [h]

/-- On an in-bounds document, `is_deleted` returns the bit `doc % 8` of
byte `doc / 8`. -/
lemma is_deleted?_eq_testBit (d : DeleteBitSet) (doc : ℕ)
    (h : doc / 8 < d.data.length) :
    d.is_deleted? doc = some ((d.data.getD (doc / 8) 0).testBit (doc % 8)) := by
  have hget : d.data[doc / 8]? = some (d.data.getD (doc / 8) 0) := by
    rw [List.getElem?_eq_getElem h, List.getD_eq_getElem?_getD,
      List.getElem?_eq_getElem h]
    rfl
  simp only [DeleteBitSet.is_deleted?]
  rw [hget]
  show some ((d.data.getD (doc / 8) 0 &&& (1 <<< (doc &&& 7))) != 0) = _
  rw [and_seven_eq_mod, and_one_shiftLeft_ne]

lemma encodedBytes_take (c : ℕ → Bool) (max_doc k₀ : ℕ) (h : k₀ ≤ max_doc / 8) :
    (encodedBytes c max_doc).take k₀ = fullBytes c k₀ := by
  unfold encodedBytes
  rw [List.take_append_of_le_length (by rw [fullBytes_length]; exact h)]
  unfold fullBytes
  rw [← List.map_take, List.take_range, min_eq_left h]

/-! The claims. -/

/-- C1: for every deleted set and every `max_doc`, `write_delete_bitset`
writes exactly `ceil(max_doc / 8)` bytes to the sink in ascending byte
order (the trace lists the bytes in the order written), and bit `i % 8` of
byte `i / 8`, counted from the least-significant bit, is set iff document
`i` is in the deleted set. -/
theorem write_delete_bitset_layout (bs : BitSet) (max_doc i : ℕ) (h : i < max_doc) :
    (write_delete_bitset bs max_doc).length = (max_doc + 7) / 8 ∧
    ((write_delete_bitset bs max_doc).getD (i / 8) 0).testBit (i % 8) = bs.contains i := by
  rw [write_delete_bitset_eq]
  exact ⟨encodedBytes_length _ _, encodedBytes_testBit _ _ _ h⟩

theorem write_delete_bitset_layout_witness :
    (write_delete_bitset ⟨{1, 9}⟩ 10).length = 2 ∧
    ((write_delete_bitset ⟨{1, 9}⟩ 10).getD (9 / 8) 0).testBit (9 % 8) = true := by
  have h := write_delete_bitset_layout ⟨{1, 9}⟩ 10 9 (by decide)
  exact ⟨h.1.trans (by decide), h.2.trans (by decide)⟩

/-- C2: encoding a set `S ⊆ [0, max_doc)` with `write_delete_bitset` and
reading the bytes back as `DeleteBitSet::open` does yields a bitset whose
`is_deleted doc` equals `doc ∈ S` for every `doc < max_doc`. -/
theorem delete_bitset_roundtrip (bs : BitSet) (max_doc doc : ℕ)
    (hS : ∀ d ∈ bs.docs, d < max_doc) (h : doc < max_doc) :
    (DeleteBitSet.open' (write_delete_bitset bs max_doc)).is_deleted? doc =
      some (bs.contains doc) := by
  have hlen : (write_delete_bitset bs max_doc).length = (max_doc + 7) / 8 := by
    rw [write_delete_bitset_eq]
    exact encodedBytes_length _ _
  have hb : doc / 8 <
      (DeleteBitSet.open' (write_delete_bitset bs max_doc)).data.length := by
    show doc / 8 < (write_delete_bitset bs max_doc).length
    rw [hlen]
    omega
  rw [is_deleted?_eq_testBit _ _ hb]
  show some (((write_delete_bitset bs max_doc).getD (doc / 8) 0).testBit (doc % 8)) = _
  rw [write_delete_bitset_eq, encodedBytes_testBit bs.contains max_doc doc h]

theorem delete_bitset_roundtrip_witness :
    (DeleteBitSet.open' (write_delete_bitset ⟨{1, 9}⟩ 10)).is_deleted? 1 = some true := by
  have h := delete_bitset_roundtrip ⟨{1, 9}⟩ 10 1 (by decide) (by decide)
  exact h.trans (by decide)

/-- C3: `num_deleted` equals the total population count over every byte of
`data` for the output of `open`, for the output of `merge_delete_bitset`
on arbitrary inputs, and for `from_bitset` when every member of the input
set is below `max_doc`. -/
theorem num_deleted_popcount_invariant (bytes : List ℕ) (a b : DeleteBitSet)
    (s : BitSet) (max_doc : ℕ) (h : ∀ d ∈ s.docs, d < max_doc) :
    (DeleteBitSet.open' bytes).num_deleted =
      ((DeleteBitSet.open' bytes).data.map countOnes).sum ∧
    (merge_delete_bitset a b).num_deleted =
      ((merge_delete_bitset a b).data.map countOnes).sum ∧
    (DeleteBitSet.from_bitset s max_doc).num_deleted =
      ((DeleteBitSet.from_bitset s max_doc).data.map countOnes).sum := by
  refine ⟨rfl, rfl, ?_⟩
  show s.len = ((write_delete_bitset s max_doc).map countOnes).sum
  rw [write_delete_bitset_eq, sum_countOnes_encodedBytes]
  exact (countP_range_card s.docs max_doc h).symm

theorem num_deleted_popcount_invariant_witness :
    (DeleteBitSet.open' [3, 128]).num_deleted =
      ((DeleteBitSet.open' [3, 128]).data.map countOnes).sum ∧
    (merge_delete_bitset ⟨[2, 2], 5⟩ ⟨[34, 66], 4⟩).num_deleted =
      ((merge_delete_bitset ⟨[2, 2], 5⟩ ⟨[34, 66], 4⟩).data.map countOnes).sum ∧
    (DeleteBitSet.from_bitset ⟨{1, 9}⟩ 10).num_deleted =
      ((DeleteBitSet.from_bitset ⟨{1, 9}⟩ 10).data.map countOnes).sum :=
  num_deleted_popcount_invariant [3, 128] ⟨[2, 2], 5⟩ ⟨[34, 66], 4⟩ ⟨{1, 9}⟩ 10 (by decide)

/-- C4: merging buffers of byte lengths `n1 < n2` (in either argument
order) yields a buffer of byte length exactly `n2`, and for every document
whose byte offset is at least `n1` the merged answer equals the longer
operand's answer exactly, the shorter operand's missing bytes counting as
zero. -/
theorem merge_zero_extension (a b : DeleteBitSet) (h : a.data.length < b.data.length) :
    (merge_delete_bitset a b).data.length = b.data.length ∧
    (merge_delete_bitset b a).data.length = b.data.length ∧
    ∀ doc : ℕ, a.data.length ≤ doc / 8 →
      (merge_delete_bitset a b).is_deleted? doc = b.is_deleted? doc ∧
      (merge_delete_bitset b a).is_deleted? doc = b.is_deleted? doc := by
  have hmax : max a.data.length b.data.length = b.data.length := by omega
  have hmax' : max b.data.length a.data.length = b.data.length := by omega
  refine ⟨by rw [merge_data_length, hmax], by rw [merge_data_length, hmax'], ?_⟩
  intro doc hdoc
  have hgetb : ∀ hb : doc / 8 < b.data.length,
      b.data.getD (doc / 8) 0 = b.data[doc / 8] := by
    intro hb
    rw [List.getD_eq_getElem?_getD, List.getElem?_eq_getElem hb]
    rfl
  constructor
  · apply is_deleted?_congr
    rw [merge_data_getElem?, hmax]
    by_cases hb : doc / 8 < b.data.length
    · rw [if_pos hb, List.getD_eq_default a.data 0 hdoc, Nat.zero_or, hgetb hb,
        List.getElem?_eq_getElem hb]
    · rw [if_neg hb, List.getElem?_eq_none (by omega)]
  · apply is_deleted?_congr
    rw [merge_data_getElem?, hmax']
    by_cases hb : doc / 8 < b.data.length
    · rw [if_pos hb, List.getD_eq_default a.data 0 hdoc, Nat.or_zero, hgetb hb,
        List.getElem?_eq_getElem hb]
    · rw [if_neg hb, List.getElem?_eq_none (by omega)]

theorem merge_zero_extension_witness :
    (merge_delete_bitset ⟨[2], 1⟩ ⟨[34, 66], 4⟩).data.length = 2 ∧
    (merge_delete_bitset ⟨[34, 66], 4⟩ ⟨[2], 1⟩).data.length = 2 ∧
    (merge_delete_bitset ⟨[2], 1⟩ ⟨[34, 66], 4⟩).is_deleted? 14 =
      (⟨[34, 66], 4⟩ : DeleteBitSet).is_deleted? 14 ∧
    (merge_delete_bitset ⟨[34, 66], 4⟩ ⟨[2], 1⟩).is_deleted? 14 =
      (⟨[34, 66], 4⟩ : DeleteBitSet).is_deleted? 14 := by
  have h := merge_zero_extension ⟨[2], 1⟩ ⟨[34, 66], 4⟩ (by decide)
  exact ⟨h.1, h.2.1, h.2.2 14 (by decide)⟩

/-- C5: merging is commutative: the two argument orders produce identical
data bytes, equal `num_deleted`, and identical `is_deleted` answers at
every document index. -/
theorem merge_commutative (a b : DeleteBitSet) :
    (merge_delete_bitset a b).data = (merge_delete_bitset b a).data ∧
    (merge_delete_bitset a b).num_deleted = (merge_delete_bitset b a).num_deleted ∧
    ∀ doc : ℕ, (merge_delete_bitset a b).is_deleted? doc =
      (merge_delete_bitset b a).is_deleted? doc := by
  have hdata : (merge_delete_bitset a b).data = (merge_delete_bitset b a).data := by
    show List.zipWith _ (zeroExtend a.data (max a.data.length b.data.length))
        (zeroExtend b.data (max a.data.length b.data.length)) =
      List.zipWith _ (zeroExtend b.data (max b.data.length a.data.length))
        (zeroExtend a.data (max b.data.length a.data.length))
    rw [Nat.max_comm b.data.length a.data.length]
    exact List.zipWith_comm_of_comm _ Nat.lor_comm _ _
  refine ⟨hdata, ?_, ?_⟩
  · show ((merge_delete_bitset a b).data.map countOnes).sum =
      ((merge_delete_bitset b a).data.map countOnes).sum
    rw [hdata]
  · intro doc
    exact is_deleted?_congr _ _ _ (by rw [hdata])

/-- C6: the bitset built by `from_bitset` from a set whose members are all
below `max_doc` reports `num_deleted` equal to the exact cardinality of
the set (the code caches the input set's `len()`). -/
theorem from_bitset_count_law (s : BitSet) (max_doc : ℕ)
    (h : ∀ d ∈ s.docs, d < max_doc) :
    (DeleteBitSet.from_bitset s max_doc).num_deleted = s.docs.card := rfl

theorem from_bitset_count_law_witness :
    (DeleteBitSet.from_bitset ⟨{1, 9}⟩ 10).num_deleted = 2 := by
  have h := from_bitset_count_law ⟨{1, 9}⟩ 10 (by decide)
  exact h.trans (by decide)

/-- C7: `open` derives `num_deleted` as the sum of the population counts of
literally every byte present in the buffer, with no filtering by any
externally known `max_doc`: appending trailing bytes (for instance set bits
beyond a caller-tracked `max_doc`) adds their full population count. -/
theorem open_counts_every_byte (bytes extra : List ℕ) :
    (DeleteBitSet.open' bytes).num_deleted = (bytes.map countOnes).sum ∧
    (DeleteBitSet.open' (bytes ++ extra)).num_deleted =
      (DeleteBitSet.open' bytes).num_deleted + (extra.map countOnes).sum := by
  refine ⟨rfl, ?_⟩
  show ((bytes ++ extra).map countOnes).sum = _
  rw [List.map_append, List.sum_append]
  rfl

/-- C8: wherever `is_deleted` returns a defined boolean (in particular on
every document whose byte index is inside the buffer), `is_alive` returns
its negation; both are pure functions of the bitset and the document. -/
theorem alive_complement_deleted (d : DeleteBitSet) (doc : ℕ) (bb : Bool)
    (h : doc / 8 < d.data.length) (hb : d.is_deleted? doc = some bb) :
    d.is_alive? doc = some (!bb) := by
  unfold DeleteBitSet.is_alive?
  rw [hb]
  rfl

theorem alive_complement_deleted_witness :
    (⟨[2, 2], 2⟩ : DeleteBitSet).is_alive? 1 = some false :=
  alive_complement_deleted ⟨[2, 2], 2⟩ 1 true (by decide) (by decide)

/-- C9: run against a sink whose k-th write behaves as `fail? k`,
`write_delete_bitset` succeeds (error `none`, full buffer written) iff
every one of its writes succeeds; at the first failing write it aborts
immediately: the error is surfaced unmodified, the sink has received
exactly the bytes written before that call, and no further write is
attempted. -/
theorem write_delete_bitset_error_handling {ε : Type} (bs : BitSet) (max_doc : ℕ)
    (fail? : ℕ → Option ε) :
    ((∀ k, k < numWrites max_doc → fail? k = none) →
      (write_delete_bitset_io bs max_doc fail?).err = none ∧
      (write_delete_bitset_io bs max_doc fail?).trace = write_delete_bitset bs max_doc) ∧
    (∀ k₀ e, k₀ < numWrites max_doc → (∀ k, k < k₀ → fail? k = none) →
        fail? k₀ = some e →
      (write_delete_bitset_io bs max_doc fail?).err = some e ∧
      (write_delete_bitset_io bs max_doc fail?).trace =
        (write_delete_bitset bs max_doc).take k₀ ∧
      (write_delete_bitset_io bs max_doc fail?).writes = k₀) ∧
    ((write_delete_bitset_io bs max_doc fail?).err = none ↔
      ∀ k, k < numWrites max_doc → fail? k = none) := by
  have partA : (∀ k, k < numWrites max_doc → fail? k = none) →
      (write_delete_bitset_io bs max_doc fail?).err = none ∧
      (write_delete_bitset_io bs max_doc fail?).trace = write_delete_bitset bs max_doc := by
    intro h
    rw [write_io_ok bs max_doc fail? h]
    exact ⟨rfl, (write_delete_bitset_eq bs max_doc).symm⟩
  have partB : ∀ k₀ e, k₀ < numWrites max_doc → (∀ k, k < k₀ → fail? k = none) →
      fail? k₀ = some e →
      (write_delete_bitset_io bs max_doc fail?).err = some e ∧
      (write_delete_bitset_io bs max_doc fail?).trace =
        (write_delete_bitset bs max_doc).take k₀ ∧
      (write_delete_bitset_io bs max_doc fail?).writes = k₀ := by
    intro k₀ e hk hprev he
    obtain ⟨h1, h2, h3⟩ := write_io_fail bs max_doc fail? k₀ e hk hprev he
    refine ⟨h1, ?_, h3⟩
    rw [h2, write_delete_bitset_eq,
      encodedBytes_take bs.contains max_doc k₀ (by rw [numWrites_eq] at hk; omega)]
  refine ⟨partA, partB, ?_, fun h => (partA h).1⟩
  intro herr
  by_contra hno
  push_neg at hno
  obtain ⟨k, hk, hfk⟩ := hno
  classical
  have hP : ∃ j, j < numWrites max_doc ∧ (fail? j).isSome = true :=
    ⟨k, hk, Option.ne_none_iff_isSome.mp hfk⟩
  obtain ⟨e, he⟩ := Option.isSome_iff_exists.mp (Nat.find_spec hP).2
  have hprev : ∀ j, j < Nat.find hP → fail? j = none := by
    intro j hj
    have hlt : j < numWrites max_doc := lt_trans hj (Nat.find_spec hP).1
    have := Nat.find_min hP hj
    rw [not_and] at this
    exact Option.not_isSome_iff_eq_none.mp (this hlt)
  have := (partB (Nat.find hP) e (Nat.find_spec hP).1 hprev he).1
  rw [herr] at this
  exact Option.noConfusion this

theorem write_delete_bitset_error_handling_witness :
    (write_delete_bitset_io ⟨{1, 9}⟩ 10
        (fun k => if k = 1 then some () else none)).err = some () ∧
    (write_delete_bitset_io ⟨{1, 9}⟩ 10
        (fun k => if k = 1 then some () else none)).trace =
      (write_delete_bitset ⟨{1, 9}⟩ 10).take 1 ∧
    (write_delete_bitset_io ⟨{1, 9}⟩ 10
        (fun k => if k = 1 then some () else none)).writes = 1 :=
  (write_delete_bitset_error_handling ⟨{1, 9}⟩ 10
    (fun k => if k = 1 then some () else none)).2.1 1 () (by decide) (by decide) rfl

/-- C10: under the precondition `doc / 8 < length data`, `is_deleted` is
total and returns the defined boolean the code computes; when the
precondition is violated the slice access is a checked out-of-bounds
failure (modelled by `none`), never a silent read. -/
theorem is_deleted_checked_access (d : DeleteBitSet) (doc : ℕ) :
    (doc / 8 < d.data.length →
      d.is_deleted? doc =
        some (((d.data.getD (doc / 8) 0) &&& (1 <<< (doc &&& 7))) != 0)) ∧
    (d.data.length ≤ doc / 8 → d.is_deleted? doc = none) := by
  constructor
  · intro h
    rw [is_deleted?_eq_testBit d doc h, and_seven_eq_mod, and_one_shiftLeft_ne]
  · intro h
    simp only [DeleteBitSet.is_deleted?]
    rw [List.getElem?_eq_none h]

theorem is_deleted_checked_access_witness :
    (⟨[2], 1⟩ : DeleteBitSet).is_deleted? 1 = some true ∧
    (⟨[2], 1⟩ : DeleteBitSet).is_deleted? 8 = none :=
  ⟨((is_deleted_checked_access ⟨[2], 1⟩ 1).1 (by decide)).trans (by decide),
    (is_deleted_checked_access ⟨[2], 1⟩ 8).2 (by decide)⟩

end TantivyDelete
